import Mathlib

set_option maxRecDepth 10000

/-!
Shallow embedding of `src/poa.py` (a Bleichenbacher PKCS#1 v1.5 padding-oracle
attack, Python 2) and proofs about it.

Modelling conventions:
* Python 2 integers are `ℤ`; Python 2 `/` and `%` on integers are floor
  division and floor modulus, i.e. `Int.fdiv` / `Int.fmod`.
* The padding oracle (`self.padding_oracle`, supplied by the caller) is a
  parameter `o : ℤ → Bool`.
* `rsa.core.encrypt_int` is the external modular-exponentiation primitive
  `m ^ b mod n`.
* Python `set` values are modelled as duplicate-free lists: `setInsert`
  (`newM |= set([x])`) appends only if absent, and iteration order is the
  insertion order (a deterministic refinement of CPython's arbitrary order).
* The source's unbounded `while` loops take an explicit fuel argument and
  return `Option`, `none` meaning the fuel was exhausted (or a Python
  `KeyError` on popping an empty set).
* `2**(self.k-16)` assumes `k ≥ 16` (for smaller `k` the Python source would
  produce a float and crash later); the embedding uses truncated `ℕ`
  subtraction in the exponent.
-/

namespace POA

/-- The immutable key parameters stored by `PaddingOracleAttack.__init__`
(src/poa.py lines 27-34): key size `k` in bits, modulus `n`, public exponent `b`. -/
structure Params where
  k : ℕ
  n : ℤ
  b : ℕ
deriving DecidableEq

/-- `self.B = 2**(self.k-16)` (line 33); the power is computed in `ℕ` and
cast, which is the same value and keeps kernel reduction cheap. -/
def Params.B (P : Params) : ℤ := ((2 ^ (P.k - 16) : ℕ) : ℤ)

/-- `self.B2 = 2*self.B` (line 34). -/
def Params.B2 (P : Params) : ℤ := 2 * P.B

/-- `self.B3 = 3*self.B` (line 34). -/
def Params.B3 (P : Params) : ℤ := 3 * P.B

/-- `_ceil(x, y) = x/y + (x%y != 0)` (lines 36-37); Python 2 `/`, `%` on ints
are `Int.fdiv`, `Int.fmod`. -/
def _ceil (x y : ℤ) : ℤ := x.fdiv y + (if x.fmod y ≠ 0 then 1 else 0)

/-- `_floor(x, y) = x//y` (lines 39-40). -/
def _floor (x y : ℤ) : ℤ := x.fdiv y

/-- `_bin2long` (lines 43-44): raw bytes, big-endian, to an integer. -/
def _bin2long (bs : List ℕ) : ℤ := bs.foldl (fun acc byt => acc * 256 + byt) 0

/-- `_encrypt_int` (lines 47-48): the external RSA primitive `m ^ b mod n`. -/
def _encrypt_int (P : Params) (m : ℤ) : ℤ := m ^ P.b % P.n

/-- `_search_s1` (lines 54-61): starting at `start_value`, linearly search the
first multiplier whose trial ciphertext `(encrypt_int(s1) * y0) % n` the
oracle accepts.  `fuel` bounds the unbounded `while True`. -/
def _search_s1 (P : Params) (o : ℤ → Bool) (y0 : ℤ) : ℕ → ℤ → Option ℤ
  | 0, _ => none
  | fuel + 1, s1 =>
    if o ((_encrypt_int P s1 * y0) % P.n) then some s1
    else _search_s1 P o y0 fuel (s1 + 1)

/-- Python `range(lo, hi + 1)` over integers, as a list. -/
def irange (lo hi : ℤ) : List ℤ :=
  (List.range (hi + 1 - lo).toNat).map (fun i : ℕ => lo + (i : ℤ))

/-- `newM |= set([x])`: insert into a duplicate-free list. -/
def setInsert (x : ℤ × ℤ) (M : List (ℤ × ℤ)) : List (ℤ × ℤ) :=
  if x ∈ M then M else M ++ [x]

/-- `_calculate_intervals` (lines 66-75): the first interval set from `s1`.
The locals `aa`, `bb`, `newa = max(B2, aa)`, `newb = min(B3-1, bb)` of the
source are inlined. -/
def _calculate_intervals (P : Params) (s1 : ℤ) : List (ℤ × ℤ) :=
  (irange (_ceil (P.B2 * s1 - P.B3 + 1) P.n) (_floor ((P.B3 - 1) * s1 - P.B2) P.n)).foldl
    (fun newM r =>
      if max P.B2 (_ceil (P.B2 + r * P.n) s1) ≤ min (P.B3 - 1) (_floor (P.B3 - 1 + r * P.n) s1)
      then setInsert
        (max P.B2 (_ceil (P.B2 + r * P.n) s1), min (P.B3 - 1) (_floor (P.B3 - 1 + r * P.n) s1))
        newM
      else newM)
    []

/-- `_narrow_intervals` (lines 80-90): fold the accepted multiplier `si` into
every interval `(a, b) ∈ M`, accumulating the kept pairs.  The locals `aa`,
`bb`, `newa = max(a, aa)`, `newb = min(b, bb)` of the source are inlined. -/
def _narrow_intervals (P : Params) (si : ℤ) (M : List (ℤ × ℤ)) : List (ℤ × ℤ) :=
  M.foldl
    (fun newM ab =>
      (irange (_ceil (ab.1 * si - P.B3 + 1) P.n) (_floor (ab.2 * si - P.B2) P.n)).foldl
        (fun acc r =>
          if max ab.1 (_ceil (P.B2 + r * P.n) si) ≤ min ab.2 (_floor (P.B3 - 1 + r * P.n) si)
          then setInsert
            (max ab.1 (_ceil (P.B2 + r * P.n) si), min ab.2 (_floor (P.B3 - 1 + r * P.n) si))
            acc
          else acc)
        newM)
    []

/-- The `while not found` loop of `_just_one_interval` (lines 98-105): for the
current ratio `r`, scan `si` over `range(ceil(B2+r*n, b), floor(B3-1+r*n, a)+1)`
for the first accepted trial; otherwise retry with `r + 1`. -/
def jloop (P : Params) (o : ℤ → Bool) (y0 a b : ℤ) : ℕ → ℤ → Option ℤ
  | 0, _ => none
  | fuel + 1, r =>
    if ((irange (_ceil (P.B2 + r * P.n) b) (_floor (P.B3 - 1 + r * P.n) a)).find?
        (fun si => o ((_encrypt_int P si * y0) % P.n))).isSome
    then (irange (_ceil (P.B2 + r * P.n) b) (_floor (P.B3 - 1 + r * P.n) a)).find?
        (fun si => o ((_encrypt_int P si * y0) % P.n))
    else jloop P o y0 a b fuel (r + 1)

/-- `_just_one_interval` (lines 95-106): the single-interval refinement,
starting from `r = ceil((b*si - B2)*2, n)` (line 96). -/
def _just_one_interval (P : Params) (o : ℤ → Bool) (y0 si a b : ℤ) (fuel : ℕ) : Option ℤ :=
  jloop P o y0 a b fuel (_ceil ((b * si - P.B2) * 2) P.n)

/-- A hexadecimal digit character, lowercase, as produced by Python `'%x'`. -/
def hexChar (d : ℕ) : Char := if d < 10 then Char.ofNat (48 + d) else Char.ofNat (87 + d)

/-- Big-endian hex digits of `m` (empty for `0`); the first argument is fuel,
`hexDigits m m` is exact. -/
def hexDigits : ℕ → ℕ → List Char
  | _, 0 => []
  | 0, _ => []
  | fuel + 1, m => hexDigits fuel (m / 16) ++ [hexChar (m % 16)]

/-- Python `'%0<width>x' % m` for `m ≥ 0`: lowercase hex, zero-padded on the
left to `width` characters (longer if `m` needs more digits). -/
def pyHexPad (width : ℕ) (m : ℕ) : String :=
  String.mk (List.replicate (width - (if m = 0 then ['0'] else hexDigits m m).length) '0'
    ++ (if m = 0 then ['0'] else hexDigits m m))

/-- `'%0256x' % m` (line 127), including Python's sign handling for negative
`m` (the field width 256 then counts the `-`). -/
def pyFormat0256 (m : ℤ) : String :=
  if m < 0 then String.mk ('-' :: (pyHexPad 255 (-m).toNat).data) else pyHexPad 256 m.toNat

/-- The `while len(newM) > 1` loop of `run_attack` (lines 116-118): narrow with
the current `s1`, then search the next `s1` from `s1 + 1`.  `fuel` also bounds
each inner `_search_s1`. -/
def loop1 (P : Params) (o : ℤ → Bool) (fuel : ℕ) (y0 : ℤ) :
    ℕ → ℤ → List (ℤ × ℤ) → Option (ℤ × List (ℤ × ℤ))
  | 0, _, _ => none
  | steps + 1, s1, M =>
    if 1 < M.length then
      match _search_s1 P o y0 fuel (s1 + 1) with
      | none => none
      | some s1' => loop1 P o fuel y0 steps s1' (_narrow_intervals P s1 M)
    else some (s1, M)

/-- The `while True` loop of `run_attack` (lines 121-127): refine with
`_just_one_interval`, narrow, peek the set's element (`pop` then `add`), and
stop once its two ends coincide. -/
def loop2 (P : Params) (o : ℤ → Bool) (fuel : ℕ) (y0 : ℤ) :
    ℕ → ℤ → List (ℤ × ℤ) → ℤ × ℤ → Option ℤ
  | 0, _, _, _ => none
  | steps + 1, s1, M, elem =>
    match _just_one_interval P o y0 s1 elem.1 elem.2 fuel with
    | none => none
    | some s1' =>
      match (_narrow_intervals P s1' M).head? with
      | none => none
      | some elem' =>
        if elem'.1 = elem'.2 then some elem'.1
        else loop2 P o fuel y0 steps s1' (_narrow_intervals P s1' M) elem'

/-- `run_attack` (lines 111-127): decode `y0`, find the first accepted
multiplier from `ceil(n, B3)`, build the initial interval set, run the two
driver loops, and format the collapsed value with `'%0256x'`. -/
def run_attack (P : Params) (o : ℤ → Bool) (y0raw : List ℕ) (fuel : ℕ) : Option String :=
  match _search_s1 P o (_bin2long y0raw) fuel (_ceil P.n P.B3) with
  | none => none
  | some s1 =>
    match loop1 P o fuel (_bin2long y0raw) fuel s1 (_calculate_intervals P s1) with
    | none => none
    | some (s1', M') =>
      match M'.head? with
      | none => none
      | some elem =>
        match loop2 P o fuel (_bin2long y0raw) fuel s1' M' elem with
        | none => none
        | some m => some (pyFormat0256 m)

/-- The failure alphabet the specification assigns to construction. -/
inductive AttackError where
  | invalidParameters : AttackError
deriving DecidableEq

/-- Embedding of `PaddingOracleAttack.__init__` (lines 27-34): the constructor
stores `k`, `n`, `b`, `y0` (the derived `B`, `B2`, `B3` are the functions
`Params.B`, `Params.B2`, `Params.B3`).  The source body contains no validation
and no `raise`, so the result is always `Except.ok`; the `Except` wrapper only
makes that absence of a failure path statable. -/
def poaInit (k : ℕ) (n : ℤ) (b : ℕ) (y0 : List ℕ) : Except AttackError (Params × List ℕ) :=
  Except.ok (⟨k, n, b⟩, y0)

/-! ### A concrete instance for witnesses and end-to-end runs

A toy RSA key: `n = 33 = 3 * 11`, public exponent `b = 3`, private exponent
`d = 7` (`3 * 7 = 21 ≡ 1 (mod lcm(2,10))`), declared key size `k = 16`, so the
conforming band is `[B2, B3-1] = [2, 2]`.  The target plaintext is `m0 = 2`
(which is PKCS-conforming, i.e. lies in the band), and
`y0 = encrypt(2) = 2^3 mod 33 = 8`, passed as the single raw byte `[8]`. -/

def Pc : Params := ⟨16, 33, 3⟩

/-- A deterministic padding oracle built from the private exponent `d = 7`:
accept a ciphertext iff its decryption lies in the conforming band
`[B2, B3 - 1]`. -/
def oc (c : ℤ) : Bool := decide (Pc.B2 ≤ c ^ 7 % Pc.n ∧ c ^ 7 % Pc.n ≤ Pc.B3 - 1)

/-! ### Helper lemmas: exact ceiling and floor -/

lemma floorD_eq {y : ℤ} (hy : 0 < y) (x : ℤ) :
    _floor x y = ⌊(x : ℚ) / (y : ℚ)⌋ := by
  have hq : (0 : ℚ) < (y : ℚ) := by exact_mod_cast hy
  have h0 := Int.ediv_add_emod x y
  have h1 := Int.emod_nonneg x hy.ne'
  have h2 := Int.emod_lt_of_pos x hy
  rw [_floor, Int.fdiv_eq_ediv _ hy.le]
  symm
  rw [Int.floor_eq_iff]
  constructor
  · rw [le_div_iff₀ hq]
    have h : (x / y) * y ≤ x := by nlinarith
    exact_mod_cast h
  · rw [div_lt_iff₀ hq]
    have h : x < (x / y + 1) * y := by nlinarith
    exact_mod_cast h

lemma ceilD_eq {y : ℤ} (hy : 0 < y) (x : ℤ) :
    _ceil x y = ⌈(x : ℚ) / (y : ℚ)⌉ := by
  have hq : (0 : ℚ) < (y : ℚ) := by exact_mod_cast hy
  have h0 := Int.ediv_add_emod x y
  have h1 := Int.emod_nonneg x hy.ne'
  have h2 := Int.emod_lt_of_pos x hy
  rw [_ceil, Int.fdiv_eq_ediv _ hy.le, Int.fmod_eq_emod _ hy.le]
  by_cases hm : x % y = 0
  · have hx : (x : ℚ) / (y : ℚ) = ((x / y : ℤ) : ℚ) := by
      rw [div_eq_iff hq.ne']
      have h : x = (x / y) * y := by nlinarith
      exact_mod_cast h
    simp [hm, hx, Int.ceil_intCast]
  · have hm' : 0 < x % y := lt_of_le_of_ne h1 (Ne.symm hm)
    simp only [hm, ne_eq, not_false_eq_true, if_true]
    symm
    rw [Int.ceil_eq_iff]
    constructor
    · push_cast
      rw [lt_div_iff₀ hq]
      have h : (x / y + 1 - 1) * y < x := by nlinarith
      exact_mod_cast h
    · rw [div_le_iff₀ hq]
      have h : x ≤ (x / y + 1) * y := by nlinarith
      exact_mod_cast h

lemma ceilD_le_iff {y : ℤ} (hy : 0 < y) {x q : ℤ} : _ceil x y ≤ q ↔ x ≤ q * y := by
  have hq : (0 : ℚ) < (y : ℚ) := by exact_mod_cast hy
  rw [ceilD_eq hy, Int.ceil_le, div_le_iff₀ hq]
  exact_mod_cast Iff.rfl

lemma le_floorD_iff {y : ℤ} (hy : 0 < y) {x q : ℤ} : q ≤ _floor x y ↔ q * y ≤ x := by
  have hq : (0 : ℚ) < (y : ℚ) := by exact_mod_cast hy
  rw [floorD_eq hy, Int.le_floor, le_div_iff₀ hq]
  exact_mod_cast Iff.rfl

/-! ### Helper lemmas: integer ranges, set-insertion, folds -/

lemma mem_irange {lo hi t : ℤ} : t ∈ irange lo hi ↔ lo ≤ t ∧ t ≤ hi := by
  simp only [irange, List.mem_map, List.mem_range]
  constructor
  · rintro ⟨i, hi', rfl⟩; omega
  · rintro ⟨h1, h2⟩
    exact ⟨(t - lo).toNat, by omega, by omega⟩

lemma irange_eq_nil {lo hi : ℤ} (h : hi < lo) : irange lo hi = [] := by
  simp [irange, (by omega : (hi + 1 - lo).toNat = 0)]

lemma irange_eq_cons {lo hi : ℤ} (h : lo ≤ hi) : irange lo hi = lo :: irange (lo + 1) hi := by
  have hn : (hi + 1 - lo).toNat = (hi + 1 - (lo + 1)).toNat + 1 := by omega
  simp only [irange, hn, List.range_succ_eq_map, List.map_cons, List.map_map, Nat.cast_zero,
    add_zero, Function.comp_def, Nat.succ_eq_add_one]
  congr 1
  refine List.map_congr_left (fun i _ => ?_)
  push_cast
  ring

lemma mem_setInsert {x p : ℤ × ℤ} {M : List (ℤ × ℤ)} :
    p ∈ setInsert x M ↔ p ∈ M ∨ p = x := by
  unfold setInsert
  by_cases h : x ∈ M
  · simp only [h, if_true]
    constructor
    · exact Or.inl
    · rintro (hp | rfl)
      · exact hp
      · exact h
  · simp [h, List.mem_append]

lemma setInsert_nodup {x : ℤ × ℤ} {M : List (ℤ × ℤ)} (h : M.Nodup) :
    (setInsert x M).Nodup := by
  unfold setInsert
  by_cases hx : x ∈ M
  · simpa [hx] using h
  · simp only [hx, if_false]
    exact h.append (List.nodup_singleton x) (by simpa [List.disjoint_singleton] using hx)

lemma mem_stepFold {α : Type} (step : List (ℤ × ℤ) → α → List (ℤ × ℤ))
    (Q : α → ℤ × ℤ → Prop)
    (h : ∀ acc x p, p ∈ step acc x ↔ p ∈ acc ∨ Q x p) :
    ∀ (xs : List α) (acc : List (ℤ × ℤ)) (p : ℤ × ℤ),
      p ∈ xs.foldl step acc ↔ p ∈ acc ∨ ∃ x ∈ xs, Q x p := by
  intro xs
  induction xs with
  | nil => intro acc p; simp
  | cons y ys ih =>
    intro acc p
    rw [List.foldl_cons, ih, h]
    constructor
    · rintro ((hpacc | hq) | ⟨x, hx, hQ⟩)
      · exact Or.inl hpacc
      · exact Or.inr ⟨y, by simp, hq⟩
      · exact Or.inr ⟨x, by simp [hx], hQ⟩
    · rintro (hpacc | ⟨x, hx, hQ⟩)
      · exact Or.inl (Or.inl hpacc)
      · rcases List.mem_cons.mp hx with rfl | hx'
        · exact Or.inl (Or.inr hQ)
        · exact Or.inr ⟨x, hx', hQ⟩

lemma nodup_stepFold {α : Type} (step : List (ℤ × ℤ) → α → List (ℤ × ℤ))
    (h : ∀ acc x, acc.Nodup → (step acc x).Nodup) :
    ∀ (xs : List α) (acc : List (ℤ × ℤ)), acc.Nodup → (xs.foldl step acc).Nodup := by
  intro xs
  induction xs with
  | nil => intro acc hacc; simpa using hacc
  | cons y ys ih =>
    intro acc hacc
    rw [List.foldl_cons]
    exact ih _ (h acc y hacc)

lemma find?_irange_aux (p : ℤ → Bool) (hi : ℤ) :
    ∀ (N : ℕ) (lo : ℤ), (hi + 1 - lo).toNat = N →
      ∀ s, ((irange lo hi).find? p = some s ↔
        (lo ≤ s ∧ s ≤ hi ∧ p s = true ∧ ∀ t, lo ≤ t → t < s → p t = false)) := by
  intro N
  induction N with
  | zero =>
    intro lo h0 s
    rw [irange_eq_nil (by omega)]
    simp only [List.find?_nil]
    constructor
    · intro h; cases h
    · rintro ⟨h1, h2, _, _⟩; omega
  | succ N ih =>
    intro lo hN s
    have hle : lo ≤ hi := by omega
    rw [irange_eq_cons hle]
    by_cases hp : p lo = true
    · rw [List.find?_cons_of_pos _ hp]
      constructor
      · intro h
        have hls : lo = s := by simpa using h
        subst hls
        exact ⟨le_rfl, hle, hp, fun t h1 h2 => absurd h2 (by omega)⟩
      · rintro ⟨h1, h2, hs, hmin⟩
        have hls : lo = s := by
          by_contra hne
          have hlt : lo < s := by omega
          have hfalse := hmin lo le_rfl hlt
          rw [hp] at hfalse; cases hfalse
        simp [hls]
    · have hplo : p lo = false := by
        cases hq : p lo
        · rfl
        · exact absurd hq hp
      rw [List.find?_cons_of_neg _ hp, ih (lo + 1) (by omega) s]
      constructor
      · rintro ⟨h1, h2, hs, hmin⟩
        refine ⟨by omega, h2, hs, ?_⟩
        intro t ht1 ht2
        by_cases hteq : t = lo
        · subst hteq; exact hplo
        · exact hmin t (by omega) ht2
      · rintro ⟨h1, h2, hs, hmin⟩
        have hlos : lo < s := by
          by_contra hcon
          have hseq : s = lo := by omega
          subst hseq
          rw [hs] at hplo; cases hplo
        exact ⟨by omega, h2, hs, fun t ht1 ht2 => hmin t (by omega) ht2⟩

lemma find?_irange {p : ℤ → Bool} {lo hi s : ℤ} :
    (irange lo hi).find? p = some s ↔
      (lo ≤ s ∧ s ≤ hi ∧ p s = true ∧ ∀ t, lo ≤ t → t < s → p t = false) :=
  find?_irange_aux p hi (hi + 1 - lo).toNat lo rfl s

/-! ### Helper lemmas: structural characterisation of the interval functions -/

lemma mem_calculate_intervals (P : Params) (s1 : ℤ) (p : ℤ × ℤ) :
    p ∈ _calculate_intervals P s1 ↔
      ∃ r ∈ irange (_ceil (P.B2 * s1 - P.B3 + 1) P.n) (_floor ((P.B3 - 1) * s1 - P.B2) P.n),
        max P.B2 (_ceil (P.B2 + r * P.n) s1) ≤ min (P.B3 - 1) (_floor (P.B3 - 1 + r * P.n) s1) ∧
        p = (max P.B2 (_ceil (P.B2 + r * P.n) s1), min (P.B3 - 1) (_floor (P.B3 - 1 + r * P.n) s1)) := by
  have hstep : ∀ (acc : List (ℤ × ℤ)) (r : ℤ) (q : ℤ × ℤ),
      q ∈ (if max P.B2 (_ceil (P.B2 + r * P.n) s1) ≤ min (P.B3 - 1) (_floor (P.B3 - 1 + r * P.n) s1)
           then setInsert
             (max P.B2 (_ceil (P.B2 + r * P.n) s1), min (P.B3 - 1) (_floor (P.B3 - 1 + r * P.n) s1))
             acc
           else acc) ↔
        q ∈ acc ∨ (max P.B2 (_ceil (P.B2 + r * P.n) s1) ≤ min (P.B3 - 1) (_floor (P.B3 - 1 + r * P.n) s1) ∧
          q = (max P.B2 (_ceil (P.B2 + r * P.n) s1), min (P.B3 - 1) (_floor (P.B3 - 1 + r * P.n) s1))) := by
    intro acc r q
    by_cases hc : max P.B2 (_ceil (P.B2 + r * P.n) s1) ≤ min (P.B3 - 1) (_floor (P.B3 - 1 + r * P.n) s1)
    · simp only [hc, if_true, mem_setInsert, true_and]
    · simp [hc]
  unfold _calculate_intervals
  rw [mem_stepFold _ _ hstep]
  simp

lemma mem_narrow_intervals (P : Params) (si : ℤ) (M : List (ℤ × ℤ)) (p : ℤ × ℤ) :
    p ∈ _narrow_intervals P si M ↔
      ∃ ab ∈ M, ∃ r ∈ irange (_ceil (ab.1 * si - P.B3 + 1) P.n) (_floor (ab.2 * si - P.B2) P.n),
        max ab.1 (_ceil (P.B2 + r * P.n) si) ≤ min ab.2 (_floor (P.B3 - 1 + r * P.n) si) ∧
        p = (max ab.1 (_ceil (P.B2 + r * P.n) si), min ab.2 (_floor (P.B3 - 1 + r * P.n) si)) := by
  have hinner : ∀ (ab : ℤ × ℤ) (acc : List (ℤ × ℤ)) (r : ℤ) (q : ℤ × ℤ),
      q ∈ (if max ab.1 (_ceil (P.B2 + r * P.n) si) ≤ min ab.2 (_floor (P.B3 - 1 + r * P.n) si)
           then setInsert
             (max ab.1 (_ceil (P.B2 + r * P.n) si), min ab.2 (_floor (P.B3 - 1 + r * P.n) si))
             acc
           else acc) ↔
        q ∈ acc ∨ (max ab.1 (_ceil (P.B2 + r * P.n) si) ≤ min ab.2 (_floor (P.B3 - 1 + r * P.n) si) ∧
          q = (max ab.1 (_ceil (P.B2 + r * P.n) si), min ab.2 (_floor (P.B3 - 1 + r * P.n) si))) := by
    intro ab acc r q
    by_cases hc : max ab.1 (_ceil (P.B2 + r * P.n) si) ≤ min ab.2 (_floor (P.B3 - 1 + r * P.n) si)
    · simp only [hc, if_true, mem_setInsert, true_and]
    · simp [hc]
  have houter : ∀ (acc : List (ℤ × ℤ)) (ab : ℤ × ℤ) (q : ℤ × ℤ),
      q ∈ ((irange (_ceil (ab.1 * si - P.B3 + 1) P.n) (_floor (ab.2 * si - P.B2) P.n)).foldl
          (fun acc2 r =>
            if max ab.1 (_ceil (P.B2 + r * P.n) si) ≤ min ab.2 (_floor (P.B3 - 1 + r * P.n) si)
            then setInsert
              (max ab.1 (_ceil (P.B2 + r * P.n) si), min ab.2 (_floor (P.B3 - 1 + r * P.n) si))
              acc2
            else acc2)
          acc) ↔
        q ∈ acc ∨ ∃ r ∈ irange (_ceil (ab.1 * si - P.B3 + 1) P.n) (_floor (ab.2 * si - P.B2) P.n),
          max ab.1 (_ceil (P.B2 + r * P.n) si) ≤ min ab.2 (_floor (P.B3 - 1 + r * P.n) si) ∧
          q = (max ab.1 (_ceil (P.B2 + r * P.n) si), min ab.2 (_floor (P.B3 - 1 + r * P.n) si)) := by
    intro acc ab q
    exact mem_stepFold _ _ (hinner ab) _ acc q
  unfold _narrow_intervals
  rw [mem_stepFold _ _ houter]
  simp

/-! ### Helper lemma: the ratio loop of `_just_one_interval` -/

lemma jloop_iff (P : Params) (o : ℤ → Bool) (y0 a b : ℤ) :
    ∀ (fuel : ℕ) (r s : ℤ),
      jloop P o y0 a b fuel r = some s ↔
        ∃ j : ℤ, 0 ≤ j ∧ j < (fuel : ℤ) ∧
          ((irange (_ceil (P.B2 + (r + j) * P.n) b) (_floor (P.B3 - 1 + (r + j) * P.n) a)).find?
              (fun si => o ((_encrypt_int P si * y0) % P.n)) = some s) ∧
          ∀ i : ℤ, 0 ≤ i → i < j →
            ((irange (_ceil (P.B2 + (r + i) * P.n) b) (_floor (P.B3 - 1 + (r + i) * P.n) a)).find?
                (fun si => o ((_encrypt_int P si * y0) % P.n)) = none) := by
  intro fuel
  induction fuel with
  | zero =>
    intro r s
    rw [jloop]
    constructor
    · intro h; cases h
    · rintro ⟨j, h1, h2, _, _⟩
      rw [Nat.cast_zero] at h2
      omega
  | succ f ih =>
    intro r s
    rw [jloop]
    cases hf : (irange (_ceil (P.B2 + r * P.n) b) (_floor (P.B3 - 1 + r * P.n) a)).find?
        (fun si => o ((_encrypt_int P si * y0) % P.n)) with
    | some s0 =>
      simp only [Option.isSome_some, if_true]
      constructor
      · intro h
        have hs : s0 = s := by simpa using h
        subst hs
        refine ⟨0, le_rfl, by push_cast; omega, by simpa using hf, ?_⟩
        intro i h1 h2; omega
      · rintro ⟨j, h1, h2, hfind, hnone⟩
        by_cases hj : j = 0
        · subst hj
          rw [add_zero] at hfind
          rw [hf] at hfind
          exact hfind
        · have h0 : (0 : ℤ) < j := by omega
          have hcon := hnone 0 le_rfl h0
          rw [add_zero, hf] at hcon
          cases hcon
    | none =>
      simp only [Option.isSome_none, Bool.false_eq_true, if_false]
      rw [ih (r + 1) s]
      constructor
      · rintro ⟨j, h1, h2, hfind, hnone⟩
        refine ⟨j + 1, by omega, by push_cast; omega, ?_, ?_⟩
        · have he : r + (j + 1) = r + 1 + j := by ring
          rw [he]; exact hfind
        · intro i hi1 hi2
          by_cases hi0 : i = 0
          · subst hi0
            rw [add_zero]
            exact hf
          · have he : r + i = r + 1 + (i - 1) := by ring
            rw [he]
            exact hnone (i - 1) (by omega) (by omega)
      · rintro ⟨j, h1, h2, hfind, hnone⟩
        have hj0 : j ≠ 0 := by
          intro e; subst e
          rw [add_zero, hf] at hfind
          cases hfind
        refine ⟨j - 1, by omega, by push_cast at h2 ⊢; omega, ?_, ?_⟩
        · have he : r + 1 + (j - 1) = r + j := by ring
          rw [he]; exact hfind
        · intro i hi1 hi2
          have he : r + 1 + i = r + (i + 1) := by ring
          rw [he]
          exact hnone (i + 1) (by omega) (by omega)

/-! ### Helper lemmas: folds that can only produce one fixed pair -/

lemma setInsert_nil {z : ℤ × ℤ} : setInsert z [] = [z] := by simp [setInsert]

lemma setInsert_self {z : ℤ × ℤ} : setInsert z [z] = [z] := by simp [setInsert]

lemma foldl_keep {β : Type} (step : List (ℤ × ℤ) → β → List (ℤ × ℤ)) (z : ℤ × ℤ)
    (hstep : ∀ acc x, step acc x = acc ∨ step acc x = setInsert z acc) :
    ∀ (xs : List β), xs.foldl step [z] = [z] := by
  intro xs
  induction xs with
  | nil => simp
  | cons y ys ih =>
    rw [List.foldl_cons]
    rcases hstep [z] y with h | h
    · rw [h]; exact ih
    · rw [h, setInsert_self]; exact ih

lemma foldl_hit {β : Type} (step : List (ℤ × ℤ) → β → List (ℤ × ℤ)) (z : ℤ × ℤ) (xt : β)
    (hstep : ∀ acc x, step acc x = acc ∨ step acc x = setInsert z acc)
    (hhit : ∀ acc, step acc xt = setInsert z acc) :
    ∀ (xs : List β) (acc : List (ℤ × ℤ)), xt ∈ xs → (acc = [] ∨ acc = [z]) →
      xs.foldl step acc = [z] := by
  intro xs
  induction xs with
  | nil => intro acc hmem _; cases hmem
  | cons y ys ih =>
    intro acc hmem hacc
    rw [List.foldl_cons]
    by_cases hy : y = xt
    · subst hy
      rcases hacc with rfl | rfl
      · rw [hhit, setInsert_nil]
        exact foldl_keep step z hstep ys
      · rw [hhit, setInsert_self]
        exact foldl_keep step z hstep ys
    · rcases List.mem_cons.mp hmem with h | h
      · exact absurd h.symm hy
      · refine ih _ h ?_
        rcases hstep acc y with hs | hs <;> rcases hacc with rfl | rfl <;>
          simp [hs, setInsert_nil, setInsert_self]

/-! ### The claims -/

/-- C10: for every integer `x` and positive `y`, `_ceil x y` is exactly
`⌈x/y⌉` and `_floor x y` is exactly `⌊x/y⌋`, including for negative `x` and
non-dividing `y`. -/
theorem ceil_floor_exact (x y : ℤ) (hy : 0 < y) :
    _ceil x y = ⌈(x : ℚ) / (y : ℚ)⌉ ∧ _floor x y = ⌊(x : ℚ) / (y : ℚ)⌋ :=
  ⟨ceilD_eq hy x, floorD_eq hy x⟩

/-- Witness for C10 at `x = -7`, `y = 3`: the helpers return `⌈-7/3⌉ = -2` and
`⌊-7/3⌋ = -3`. -/
theorem ceil_floor_exact_w :
    ((0 : ℤ) < 3 ∧ _ceil (-7) 3 = -2 ∧ _floor (-7) 3 = -3) ∧
      (_ceil (-7) 3 = ⌈((-7 : ℤ) : ℚ) / ((3 : ℤ) : ℚ)⌉ ∧
       _floor (-7) 3 = ⌊((-7 : ℤ) : ℚ) / ((3 : ℤ) : ℚ)⌋) :=
  ⟨⟨by decide, by decide, by decide⟩, ceil_floor_exact (-7) 3 (by decide)⟩

/-- C3: `_search_s1 start y0` returns `s` exactly when `s` is the smallest
multiplier `≥ start` whose trial ciphertext `(s^b mod n · y0) mod n` the
oracle accepts (and `s` is within the fuel bound), found by unit increments
from `start`. -/
theorem search_s1_returns_least (P : Params) (o : ℤ → Bool) (y0 : ℤ) (fuel : ℕ) :
    ∀ (start s : ℤ),
      _search_s1 P o y0 fuel start = some s ↔
        (start ≤ s ∧ s < start + fuel ∧ o ((_encrypt_int P s * y0) % P.n) = true ∧
          ∀ t, start ≤ t → t < s → o ((_encrypt_int P t * y0) % P.n) = false) := by
  induction fuel with
  | zero =>
    intro start s
    simp only [_search_s1]
    constructor
    · intro h; cases h
    · rintro ⟨h1, h2, _, _⟩; omega
  | succ f ih =>
    intro start s
    by_cases hb : o ((_encrypt_int P start * y0) % P.n) = true
    · simp only [_search_s1]
      rw [if_pos hb]
      constructor
      · intro h
        have hs : start = s := by simpa using h
        subst hs
        exact ⟨le_rfl, by omega, hb, fun t h1 h2 => absurd h2 (by omega)⟩
      · rintro ⟨h1, h2, hacc, hmin⟩
        have hse : start = s := by
          by_contra hne
          have hlt : start < s := by omega
          have hf := hmin start le_rfl hlt
          rw [hb] at hf; cases hf
        simp [hse]
    · have hbf : o ((_encrypt_int P start * y0) % P.n) = false := by
        cases hq : o ((_encrypt_int P start * y0) % P.n)
        · rfl
        · exact absurd hq hb
      simp only [_search_s1]
      rw [if_neg hb, ih (start + 1) s]
      constructor
      · rintro ⟨h1, h2, hacc, hmin⟩
        refine ⟨by omega, by omega, hacc, ?_⟩
        intro t ht1 ht2
        by_cases hteq : t = start
        · subst hteq; exact hbf
        · exact hmin t (by omega) ht2
      · rintro ⟨h1, h2, hacc, hmin⟩
        have hne : start ≠ s := by
          intro e; subst e
          rw [hacc] at hbf; cases hbf
        exact ⟨by omega, by omega, hacc, fun t ht1 ht2 => hmin t (by omega) ht2⟩

/-- Witness for C3 on the concrete instance: searching from `11 = ⌈33/3⌉`
returns `34`, which is accepted, in range, and minimal. -/
theorem search_s1_returns_least_w :
    (11 : ℤ) ≤ 34 ∧ (34 : ℤ) < 11 + (100 : ℕ) ∧
      oc ((_encrypt_int Pc 34 * 8) % Pc.n) = true ∧
      ∀ t, (11 : ℤ) ≤ t → t < 34 → oc ((_encrypt_int Pc t * 8) % Pc.n) = false :=
  (search_s1_returns_least Pc oc 8 100 11 34).mp (by decide)

/-- C4: `_narrow_intervals si M` contains a pair exactly when some source
interval `(a, b) ∈ M` and some ratio `r ∈ [⌈(a·si - B3 + 1)/n⌉, ⌊(b·si - B2)/n⌋]`
produce it as `(max a ⌈(B2 + r·n)/si⌉, min b ⌊(B3 - 1 + r·n)/si⌋)` with the
first component at most the second: every interval of `M` is processed and the
kept pairs are unioned. -/
theorem narrow_intervals_processes_all (P : Params) (si : ℤ) (M : List (ℤ × ℤ)) (p : ℤ × ℤ)
    (hn : 0 < P.n) (hsi : 0 < si) :
    p ∈ _narrow_intervals P si M ↔
      ∃ ab ∈ M, ∃ r : ℤ,
        ⌈((ab.1 * si - P.B3 + 1 : ℤ) : ℚ) / (P.n : ℚ)⌉ ≤ r ∧
        r ≤ ⌊((ab.2 * si - P.B2 : ℤ) : ℚ) / (P.n : ℚ)⌋ ∧
        max ab.1 ⌈((P.B2 + r * P.n : ℤ) : ℚ) / (si : ℚ)⌉ ≤
          min ab.2 ⌊((P.B3 - 1 + r * P.n : ℤ) : ℚ) / (si : ℚ)⌋ ∧
        p = (max ab.1 ⌈((P.B2 + r * P.n : ℤ) : ℚ) / (si : ℚ)⌉,
             min ab.2 ⌊((P.B3 - 1 + r * P.n : ℤ) : ℚ) / (si : ℚ)⌋) := by
  simp only [← ceilD_eq hn, ← floorD_eq hn, ← ceilD_eq hsi, ← floorD_eq hsi]
  rw [mem_narrow_intervals]
  constructor
  · rintro ⟨ab, hab, r, hr, hcond, rfl⟩
    rcases mem_irange.mp hr with ⟨hr1, hr2⟩
    exact ⟨ab, hab, r, hr1, hr2, hcond, rfl⟩
  · rintro ⟨ab, hab, r, hr1, hr2, hcond, rfl⟩
    exact ⟨ab, hab, r, mem_irange.mpr ⟨hr1, hr2⟩, hcond, rfl⟩

/-- Witness for C4 on the concrete instance: `(2, 2)` is produced by narrowing
`[(2, 2)]` with the accepted multiplier `67`. -/
theorem narrow_intervals_processes_all_w :
    ∃ ab ∈ [((2 : ℤ), (2 : ℤ))], ∃ r : ℤ,
      ⌈((ab.1 * 67 - Pc.B3 + 1 : ℤ) : ℚ) / (Pc.n : ℚ)⌉ ≤ r ∧
      r ≤ ⌊((ab.2 * 67 - Pc.B2 : ℤ) : ℚ) / (Pc.n : ℚ)⌋ ∧
      max ab.1 ⌈((Pc.B2 + r * Pc.n : ℤ) : ℚ) / ((67 : ℤ) : ℚ)⌉ ≤
        min ab.2 ⌊((Pc.B3 - 1 + r * Pc.n : ℤ) : ℚ) / ((67 : ℤ) : ℚ)⌋ ∧
      ((2 : ℤ), (2 : ℤ)) = (max ab.1 ⌈((Pc.B2 + r * Pc.n : ℤ) : ℚ) / ((67 : ℤ) : ℚ)⌉,
           min ab.2 ⌊((Pc.B3 - 1 + r * Pc.n : ℤ) : ℚ) / ((67 : ℤ) : ℚ)⌋) :=
  (narrow_intervals_processes_all Pc 67 [(2, 2)] (2, 2) (by decide) (by decide)).mp (by decide)

/-- C5: when `_just_one_interval` returns a multiplier `s`, it was found by
starting from the ratio `r0 = ⌈2(b·si - B2)/n⌉` and, for the `j`-th ratio
`r0 + j`, scanning `si` upward over `[⌈(B2 + r·n)/b⌉, ⌊(B3 - 1 + r·n)/a⌋]`:
`s` lies in the `j`-th range, is accepted, everything below it in that range is
rejected, and every earlier ratio's range contains no accepted multiplier. -/
theorem just_one_interval_spec (P : Params) (o : ℤ → Bool) (y0 si a b s : ℤ) (fuel : ℕ)
    (hn : 0 < P.n) (ha : 0 < a) (hb : 0 < b)
    (hrun : _just_one_interval P o y0 si a b fuel = some s) :
    ∃ r0 : ℤ, r0 = ⌈((2 * (b * si - P.B2) : ℤ) : ℚ) / (P.n : ℚ)⌉ ∧
      ∃ j : ℤ, 0 ≤ j ∧ j < (fuel : ℤ) ∧
        (⌈((P.B2 + (r0 + j) * P.n : ℤ) : ℚ) / (b : ℚ)⌉ ≤ s ∧
         s ≤ ⌊((P.B3 - 1 + (r0 + j) * P.n : ℤ) : ℚ) / (a : ℚ)⌋ ∧
         o ((_encrypt_int P s * y0) % P.n) = true ∧
         (∀ t, ⌈((P.B2 + (r0 + j) * P.n : ℤ) : ℚ) / (b : ℚ)⌉ ≤ t → t < s →
            o ((_encrypt_int P t * y0) % P.n) = false)) ∧
        ∀ i : ℤ, 0 ≤ i → i < j → ∀ t,
          ⌈((P.B2 + (r0 + i) * P.n : ℤ) : ℚ) / (b : ℚ)⌉ ≤ t →
          t ≤ ⌊((P.B3 - 1 + (r0 + i) * P.n : ℤ) : ℚ) / (a : ℚ)⌋ →
          o ((_encrypt_int P t * y0) % P.n) = false := by
  simp only [← ceilD_eq hn, ← ceilD_eq hb, ← floorD_eq ha]
  refine ⟨_ceil ((b * si - P.B2) * 2) P.n, by congr 1; ring, ?_⟩
  unfold _just_one_interval at hrun
  rcases (jloop_iff P o y0 a b fuel (_ceil ((b * si - P.B2) * 2) P.n) s).mp hrun with
    ⟨j, hj0, hjf, hfind, hnone⟩
  rcases find?_irange.mp hfind with ⟨hlo, hhi, hacc, hmin⟩
  refine ⟨j, hj0, hjf, ⟨hlo, hhi, hacc, hmin⟩, ?_⟩
  intro i hi0 hij t ht1 ht2
  have hni := hnone i hi0 hij
  rw [List.find?_eq_none] at hni
  have hmem := mem_irange.mpr ⟨ht1, ht2⟩
  have hnt := hni t hmem
  cases hq : o ((_encrypt_int P t * y0) % P.n)
  · rfl
  · exact absurd hq hnt

/-- Witness for C5 on the concrete instance: refining the single interval
`[2, 2]` from `si = 34` returns `67` at the very first ratio. -/
theorem just_one_interval_spec_w :
    ((0 : ℤ) < Pc.n ∧ (0 : ℤ) < 2 ∧ _just_one_interval Pc oc 8 34 2 2 1 = some 67) ∧
      (∃ r0 : ℤ, r0 = ⌈((2 * (2 * 34 - Pc.B2) : ℤ) : ℚ) / (Pc.n : ℚ)⌉ ∧
        ∃ j : ℤ, 0 ≤ j ∧ j < ((1 : ℕ) : ℤ) ∧
          (⌈((Pc.B2 + (r0 + j) * Pc.n : ℤ) : ℚ) / ((2 : ℤ) : ℚ)⌉ ≤ 67 ∧
           (67 : ℤ) ≤ ⌊((Pc.B3 - 1 + (r0 + j) * Pc.n : ℤ) : ℚ) / ((2 : ℤ) : ℚ)⌋ ∧
           oc ((_encrypt_int Pc 67 * 8) % Pc.n) = true ∧
           (∀ t, ⌈((Pc.B2 + (r0 + j) * Pc.n : ℤ) : ℚ) / ((2 : ℤ) : ℚ)⌉ ≤ t → t < 67 →
              oc ((_encrypt_int Pc t * 8) % Pc.n) = false)) ∧
          ∀ i : ℤ, 0 ≤ i → i < j → ∀ t,
            ⌈((Pc.B2 + (r0 + i) * Pc.n : ℤ) : ℚ) / ((2 : ℤ) : ℚ)⌉ ≤ t →
            t ≤ ⌊((Pc.B3 - 1 + (r0 + i) * Pc.n : ℤ) : ℚ) / ((2 : ℤ) : ℚ)⌋ →
            oc ((_encrypt_int Pc t * 8) % Pc.n) = false) :=
  ⟨⟨by decide, by decide, by decide⟩,
    just_one_interval_spec Pc oc 8 34 2 2 67 1 (by decide) (by decide) (by decide) (by decide)⟩

/-- C6: narrowing the singleton set `{[m0, m0]}` with any further multiplier
`si` accepted for the true value `m0` (i.e. `(si·m0) mod n ∈ [B2, B3-1]`)
returns `{[m0, m0]}` unchanged. -/
theorem narrow_intervals_idempotent (P : Params) (m0 si : ℤ) (hn : 0 < P.n) (hsi : 0 < si)
    (h1 : P.B2 ≤ (si * m0) % P.n) (h2 : (si * m0) % P.n ≤ P.B3 - 1) :
    _narrow_intervals P si [(m0, m0)] = [(m0, m0)] := by
  have hmod := Int.ediv_add_emod (si * m0) P.n
  have hf4 : _ceil (P.B2 + ((si * m0) / P.n) * P.n) si ≤ m0 := by
    rw [ceilD_le_iff hsi]
    nlinarith [hmod, h1]
  have hf5 : m0 ≤ _floor (P.B3 - 1 + ((si * m0) / P.n) * P.n) si := by
    rw [le_floorD_iff hsi]
    nlinarith [hmod, h2]
  have hf2 : _ceil (m0 * si - P.B3 + 1) P.n ≤ (si * m0) / P.n := by
    rw [ceilD_le_iff hn]
    nlinarith [hmod, h2]
  have hf3 : (si * m0) / P.n ≤ _floor (m0 * si - P.B2) P.n := by
    rw [le_floorD_iff hn]
    nlinarith [hmod, h1]
  unfold _narrow_intervals
  rw [List.foldl_cons, List.foldl_nil]
  refine foldl_hit _ ((m0, m0).1, (m0, m0).2) ((si * m0) / P.n) ?_ ?_ _ _ ?_ (Or.inl rfl)
  · intro acc r
    by_cases hc : max (m0, m0).1 (_ceil (P.B2 + r * P.n) si) ≤
        min (m0, m0).2 (_floor (P.B3 - 1 + r * P.n) si)
    · right
      simp only [if_pos hc]
      have hmax : max (m0, m0).1 (_ceil (P.B2 + r * P.n) si) = m0 := by
        simp only at hc ⊢
        omega
      have hmin : min (m0, m0).2 (_floor (P.B3 - 1 + r * P.n) si) = m0 := by
        simp only at hc ⊢
        omega
      rw [hmax, hmin]
    · left
      simp only [if_neg hc]
  · intro acc
    have hmax : max (m0, m0).1 (_ceil (P.B2 + ((si * m0) / P.n) * P.n) si) = m0 :=
      max_eq_left hf4
    have hmin : min (m0, m0).2 (_floor (P.B3 - 1 + ((si * m0) / P.n) * P.n) si) = m0 :=
      min_eq_left hf5
    rw [if_pos (by rw [hmax, hmin]), hmax, hmin]
  · exact mem_irange.mpr ⟨hf2, hf3⟩

/-- Witness for C6 on the concrete instance: `67·2 mod 33 = 2` lies in the
band, and narrowing `[(2, 2)]` with `67` leaves it unchanged. -/
theorem narrow_intervals_idempotent_w :
    ((0 : ℤ) < Pc.n ∧ (0 : ℤ) < 67 ∧ Pc.B2 ≤ (67 * 2) % Pc.n ∧
      (67 * 2) % Pc.n ≤ Pc.B3 - 1) ∧
      _narrow_intervals Pc 67 [(2, 2)] = [(2, 2)] :=
  ⟨⟨by decide, by decide, by decide, by decide⟩,
    narrow_intervals_idempotent Pc 2 67 (by decide) (by decide) (by decide) (by decide)⟩

/-- C7: every pair produced by `_calculate_intervals` satisfies
`B2 ≤ a ≤ b ≤ B3 - 1`, `_narrow_intervals` preserves this invariant whenever
its input intervals satisfy it, and both outputs are duplicate-free. -/
theorem interval_set_invariants (P : Params) (s1 si : ℤ) (M : List (ℤ × ℤ)) :
    (∀ p ∈ _calculate_intervals P s1, P.B2 ≤ p.1 ∧ p.1 ≤ p.2 ∧ p.2 ≤ P.B3 - 1) ∧
    (_calculate_intervals P s1).Nodup ∧
    ((∀ q ∈ M, P.B2 ≤ q.1 ∧ q.1 ≤ q.2 ∧ q.2 ≤ P.B3 - 1) →
      ∀ p ∈ _narrow_intervals P si M, P.B2 ≤ p.1 ∧ p.1 ≤ p.2 ∧ p.2 ≤ P.B3 - 1) ∧
    (_narrow_intervals P si M).Nodup := by
  refine ⟨?_, ?_, ?_, ?_⟩
  · intro p hp
    rcases (mem_calculate_intervals P s1 p).mp hp with ⟨r, hr, hcond, rfl⟩
    exact ⟨le_max_left _ _, hcond, min_le_left _ _⟩
  · unfold _calculate_intervals
    refine nodup_stepFold _ ?_ _ _ List.nodup_nil
    intro acc r hacc
    split
    · exact setInsert_nodup hacc
    · exact hacc
  · intro hM p hp
    rcases (mem_narrow_intervals P si M p).mp hp with ⟨ab, hab, r, hr, hcond, rfl⟩
    have hq := hM ab hab
    exact ⟨le_trans hq.1 (le_max_left _ _), hcond, le_trans (min_le_left _ _) hq.2.2⟩
  · unfold _narrow_intervals
    refine nodup_stepFold _ ?_ _ _ List.nodup_nil
    intro acc ab hacc
    refine nodup_stepFold _ ?_ _ _ hacc
    intro acc2 r hacc2
    split
    · exact setInsert_nodup hacc2
    · exact hacc2

/-- Witness for C7 on the concrete instance: the bounds hold for
`_calculate_intervals` at `s1 = 34` and are preserved by narrowing `[(2, 2)]`
with `67`; both results are duplicate-free. -/
theorem interval_set_invariants_w :
    (∀ p ∈ _calculate_intervals Pc 34, Pc.B2 ≤ p.1 ∧ p.1 ≤ p.2 ∧ p.2 ≤ Pc.B3 - 1) ∧
      (_calculate_intervals Pc 34).Nodup ∧
      (∀ p ∈ _narrow_intervals Pc 67 [(2, 2)], Pc.B2 ≤ p.1 ∧ p.1 ≤ p.2 ∧ p.2 ≤ Pc.B3 - 1) ∧
      (_narrow_intervals Pc 67 [(2, 2)]).Nodup :=
  ⟨(interval_set_invariants Pc 34 67 [(2, 2)]).1,
   (interval_set_invariants Pc 34 67 [(2, 2)]).2.1,
   (interval_set_invariants Pc 34 67 [(2, 2)]).2.2.1 (by decide),
   (interval_set_invariants Pc 34 67 [(2, 2)]).2.2.2⟩

/-- C2 (code bug): on a concrete 16-bit instance whose interval set collapses
to the single point `[2, 2]`, `run_attack` returns a string of 256 hex digits
— the constant width hard-coded as `'%0256x'` in the source — although
`⌈k/4⌉ = 4` for `k = 16`; the width is not derived from `k`. -/
theorem run_attack_fixed_width_256 :
    (run_attack Pc oc [8] 100).map String.length = some 256 ∧
      (Pc.k + 3) / 4 = 4 ∧ (256 : ℕ) ≠ 4 :=
  ⟨by decide, by decide, by decide⟩

/-- C8 counterexample: on the concrete instance the input ciphertext is
already validly padded (the oracle accepts the `s = 1` trial), yet the
Candidate Search invoked by the driver — which starts at `⌈n/B3⌉ = 11`, not
at `1` — does not return `s1 = 1`. -/
theorem already_padded_search_not_one :
    oc ((_encrypt_int Pc 1 * 8) % Pc.n) = true ∧
      _search_s1 Pc oc 8 100 (_ceil Pc.n Pc.B3) ≠ some 1 :=
  ⟨by decide, by decide⟩

/-- C8 (amended): with the input ciphertext already validly padded (the oracle
accepts the `s = 1` trial), the driver's Candidate Search, which starts at
`⌈n/B3⌉`, returns the smallest accepted multiplier `34` from there rather than
`1`, and the attack still converges end to end without special-casing,
recovering the plaintext `2`. -/
theorem already_padded_run :
    oc ((_encrypt_int Pc 1 * 8) % Pc.n) = true ∧
      _search_s1 Pc oc 8 100 (_ceil Pc.n Pc.B3) = some 34 ∧
      run_attack Pc oc [8] 100 = some (pyFormat0256 2) :=
  ⟨by decide, by decide, by decide⟩

/-- C9 (amended): construction performs no validation at all — for every
`k`, `n`, `b`, `y0`, including mutually inconsistent ones, `poaInit` succeeds
and simply stores the parameters. -/
theorem poaInit_always_succeeds (k : ℕ) (n : ℤ) (b : ℕ) (y0 : List ℕ) :
    poaInit k n b y0 = Except.ok (⟨k, n, b⟩, y0) := rfl

/-- C9 counterexample: with `b = 1 ≤ 1` and `n = 5` far below `2^(k-1)` for
`k = 16` — mutually inconsistent parameters — construction still succeeds
instead of failing with `InvalidParameters`. -/
theorem poaInit_no_validation_cex :
    (1 : ℕ) ≤ 1 ∧ ¬ ((2 : ℤ) ^ (15 : ℕ) < 5) ∧ (poaInit 16 5 1 []).isOk = true :=
  ⟨by decide, by decide, by decide⟩

end POA
